import Mathlib

/-!
# Verification of the formatron core

Shallow embedding of the extractor hierarchy (`src/formatron/extractor.py`)
and of the batched decoding controller and vocabulary creation
(`src/formatron/integrations/transformers.py`), with theorems settling the
specification claims about them.
-/

set_option maxHeartbeats 1000000

namespace Formatron

/-! ## Extractor layer (`src/formatron/extractor.py`) -/

/-- Python `str.find` restricted to what `LiteralExtractor.extract` needs:
scan `hay` from the front, returning the index (offset by the accumulator `i`)
of the first position where `needle` is a prefix of the remaining text, or
`none` when there is no occurrence. -/
def findSubAux (needle : List Char) : List Char → Nat → Option Nat
  | [], i => if needle.isPrefixOf ([] : List Char) then some i else none
  | c :: t, i => if needle.isPrefixOf (c :: t) then some i else findSubAux needle t (i + 1)

/-- Python `input.find(literal)` as an `Option`: the index of the leftmost occurrence. -/
def findSub (needle hay : List Char) : Option Nat :=
  findSubAux needle hay 0

/-- Source `LiteralExtractor.extract`: `pos = input_str.find(self._literal)`; `None`
when `pos == -1`, otherwise `(input_str[pos + len(literal):], literal)`. -/
def literalExtract (literal input : List Char) : Option (List Char × List Char) :=
  match findSub literal input with
  | none => none
  | some pos => some (input.drop (pos + literal.length), literal)

theorem findSubAux_eq_none (needle h : List Char)
    (hall : ∀ j, needle.isPrefixOf (h.drop j) = false) :
    ∀ i, findSubAux needle h i = none := by
  induction h with
  | nil =>
    intro i
    have h0 := hall 0
    simp only [List.drop_nil] at h0
    simp [findSubAux, h0]
  | cons c t ih =>
    intro i
    have h0 := hall 0
    simp only [List.drop] at h0
    have hall' : ∀ j, needle.isPrefixOf (t.drop j) = false := by
      intro j
      have := hall (j + 1)
      simpa [List.drop] using this
    simp [findSubAux, h0, ih hall']

theorem findSubAux_eq_some_of_min (needle : List Char) (h : List Char) (p : Nat)
    (hp : needle.isPrefixOf (h.drop p) = true)
    (hmin : ∀ q, q < p → needle.isPrefixOf (h.drop q) = false) :
    ∀ i, findSubAux needle h i = some (i + p) := by
  induction h generalizing p with
  | nil =>
    intro i
    cases p with
    | zero =>
      simp only [List.drop_nil] at hp
      simp [findSubAux, hp]
    | succ p' =>
      have h0 := hmin 0 (Nat.succ_pos p')
      simp only [List.drop_nil] at hp h0
      rw [hp] at h0
      exact absurd h0 (by simp)
  | cons c t ih =>
    intro i
    cases p with
    | zero =>
      simp only [List.drop] at hp
      simp [findSubAux, hp]
    | succ p' =>
      have h0 := hmin 0 (Nat.succ_pos p')
      simp only [List.drop] at h0
      have hp' : needle.isPrefixOf (t.drop p') = true := by
        simpa [List.drop] using hp
      have hmin' : ∀ q, q < p' → needle.isPrefixOf (t.drop q) = false := by
        intro q hq
        have := hmin (q + 1) (Nat.succ_lt_succ hq)
        simpa [List.drop] using this
      have := ih p' hp' hmin' (i + 1)
      simp only [findSubAux, h0]
      rw [if_neg (by simp), this]
      congr 1
      omega

/-- C6: `LiteralExtractor(L).extract(S)` splits `S` strictly after the first
(leftmost) occurrence of `L` — a search that is not anchored at position 0 —
returning `(S[p + len(L):], L)` for the minimal occurrence position `p`, and
returns the absent result when `L` does not occur anywhere in `S`. -/
theorem literal_extract_first_occurrence (L S : List Char) :
    (∀ p, L.isPrefixOf (S.drop p) = true →
      (∀ q, q < p → L.isPrefixOf (S.drop q) = false) →
      literalExtract L S = some (S.drop (p + L.length), L)) ∧
    ((∀ j, L.isPrefixOf (S.drop j) = false) → literalExtract L S = none) := by
  constructor
  · intro p hp hmin
    have := findSubAux_eq_some_of_min L S p hp hmin 0
    simp only [literalExtract, findSub, this, Nat.zero_add]
  · intro hall
    have := findSubAux_eq_none L S hall 0
    simp only [literalExtract, findSub, this]

theorem literal_extract_first_occurrence_witness :
    literalExtract "ab".toList "xaby".toList = some ("y".toList, "ab".toList) :=
  (literal_extract_first_occurrence "ab".toList "xaby".toList).1 1 (by decide) (by decide)

/-- A sub-extractor as consumed by `ChoiceExtractor`: its `extract` behaviour
and its `kbnf_reference` string. The extracted value type `β` is Python's
`Any`, kept as a type parameter. -/
structure SubE (β : Type) where
  extractF : List Char → Option β
  ref : String

/-- The loop of `ChoiceExtractor.extract`: try the choices in order, return
the first non-`None` result (`if matched:` on a 2-tuple is `is not None`),
and `None` if every choice fails. -/
def firstSuccess {β : Type} : List (SubE β) → List Char → Option β
  | [], _ => none
  | c :: cs, input =>
    match c.extractF input with
    | some matched => some matched
    | none => firstSuccess cs input

/-- Source `NonterminalExtractor.__init__`: the stored `_nonterminal` is the base
name when there is no capture name and `base ++ "_" ++ capture` otherwise;
`kbnf_reference` returns it unchanged. -/
def nonterminalName (nonterminal : String) (captureName : Option String) : String :=
  match captureName with
  | none => nonterminal
  | some c => nonterminal ++ "_" ++ c

/-- Source `ChoiceExtractor` constructor data: the ordered choices, the capture
name and the base nonterminal handed to `NonterminalExtractor.__init__`. -/
structure ChoiceE (β : Type) where
  choices : List (SubE β)
  captureName : Option String
  base : String

/-- The `nonterminal` property inherited from `NonterminalExtractor`. -/
def ChoiceE.nonterminal {β : Type} (e : ChoiceE β) : String :=
  nonterminalName e.base e.captureName

/-- Source `NonterminalExtractor.kbnf_reference`: exactly the stored nonterminal. -/
def ChoiceE.kbnfReference {β : Type} (e : ChoiceE β) : String :=
  e.nonterminal

/-- Source `ChoiceExtractor.extract`. -/
def ChoiceE.extract {β : Type} (e : ChoiceE β) (input : List Char) : Option β :=
  firstSuccess e.choices input

/-- Source `ChoiceExtractor.kbnf_definition`:
`f"{self.nonterminal} ::= {' | '.join([i.kbnf_reference for i in self._choices])};"`. -/
def ChoiceE.kbnfDefinition {β : Type} (e : ChoiceE β) : String :=
  e.nonterminal ++ " ::= " ++ String.intercalate " | " (e.choices.map SubE.ref) ++ ";"

/-- The definition shape in the spec's words: the extractor's own kbnf
reference, then `::=`, then the sub-extractors' kbnf references joined by
`|` in construction order, then `;`. -/
def choiceDefinitionSpec {β : Type} (e : ChoiceE β) : String :=
  e.kbnfReference ++ " ::= " ++ String.intercalate " | " (e.choices.map SubE.ref) ++ ";"

theorem firstSuccess_all_none {β : Type} (l : List (SubE β)) (input : List Char)
    (h : ∀ e ∈ l, e.extractF input = none) :
    firstSuccess l input = none := by
  induction l with
  | nil => rfl
  | cons c cs ih =>
    have hc := h c (List.mem_cons_self c cs)
    simp only [firstSuccess, hc]
    exact ih fun e he => h e (List.mem_cons_of_mem c he)

theorem firstSuccess_append_first {β : Type} (pre post : List (SubE β)) (c : SubE β)
    (input : List Char) (r : β)
    (hpre : ∀ e ∈ pre, e.extractF input = none)
    (hc : c.extractF input = some r) :
    firstSuccess (pre ++ c :: post) input = some r := by
  induction pre with
  | nil => simp only [List.nil_append, firstSuccess, hc]
  | cons a as ih =>
    have ha := hpre a (List.mem_cons_self a as)
    simp only [List.cons_append, firstSuccess, ha]
    exact ih fun e he => hpre e (List.mem_cons_of_mem a he)

/-- C7: `ChoiceExtractor.extract` returns the result of the first
sub-extractor in construction order whose extraction is non-absent (absent if
all fail), and the result does not depend at all on the sub-extractors that
follow the first succeeding one — in particular it is unchanged under every
permutation of them. -/
theorem choice_extract_first_success {β : Type} (l pre post tail : List (SubE β))
    (c : SubE β) (input : List Char) (r : β) :
    ((∀ e ∈ l, e.extractF input = none) → firstSuccess l input = none) ∧
    ((∀ e ∈ pre, e.extractF input = none) → c.extractF input = some r →
      firstSuccess (pre ++ c :: post) input = some r ∧
      firstSuccess (pre ++ c :: tail) input = firstSuccess (pre ++ c :: post) input) := by
  refine ⟨firstSuccess_all_none l input, fun hpre hc => ?_⟩
  have h1 := firstSuccess_append_first pre post c input r hpre hc
  have h2 := firstSuccess_append_first pre tail c input r hpre hc
  exact ⟨h1, h2.trans h1.symm⟩

theorem choice_extract_first_success_witness :
    firstSuccess [SubE.mk (fun _ => none) "x"] "s".toList = (none : Option Nat) ∧
    firstSuccess
      [SubE.mk (fun _ => none) "a", SubE.mk (fun _ => some 7) "b",
        SubE.mk (fun _ => some 9) "d"] "s".toList = some 7 := by
  have h := choice_extract_first_success [SubE.mk (fun _ => none) "x"]
    [SubE.mk (fun _ => none) "a"] [SubE.mk (fun _ => some 9) "d"] []
    (SubE.mk (fun _ => some 7) "b") "s".toList 7
  refine ⟨h.1 ?_, (h.2 ?_ rfl).1⟩
  · intro e he
    rcases List.mem_singleton.mp he with rfl
    rfl
  · intro e he
    rcases List.mem_singleton.mp he with rfl
    rfl

/-- C8: the emitted grammar definition of a `ChoiceExtractor` is exactly its
own kbnf reference, `::=`, the sub-extractors' kbnf references joined by `|`
in construction order, and `;`; and `extract` runs the very same construction
order list, so grammar alternation order and extraction priority order
coincide. -/
theorem choice_kbnf_definition_shape {β : Type} (e : ChoiceE β) (input : List Char) :
    e.kbnfDefinition = choiceDefinitionSpec e ∧
    e.extract input = firstSuccess e.choices input :=
  ⟨rfl, rfl⟩

/-- C10: the suffixing scheme of `NonterminalExtractor` is not injective
across base names: base `a_b` with no capture name and base `a` with capture
name `b` produce the same kbnf reference although their bases differ. -/
theorem nonterminal_reference_collision :
    nonterminalName "a_b" none = nonterminalName "a" (some "b") ∧
    ("a_b" : String) ≠ "a" := by
  constructor
  · decide
  · decide

/-! ## Batched decoding controller
(`FormattersLogitsProcessor` in `src/formatron/integrations/transformers.py`) -/

/-- A logits entry: the value written by `float("-inf")`, or a finite score. -/
inductive Score where
  | negInf : Score
  | val : Int → Score
deriving DecidableEq, Repr

/-- Trace of the calls the controller makes on its lanes' state machines and
score rows, recorded in program order with the lane index of each call. -/
inductive Event where
  | accept (lane : Nat) (token : Nat) : Event
  | resetEv (lane : Nat) : Event
  | computeAllowed (lane : Nat) : Event
  | maskCall (lane : Nat) : Event
deriving DecidableEq, Repr

/-- The abstract per-lane grammar state machine (`Formatter`), an external
collaborator of which only the public operations are used. -/
structure FMachine (σ : Type) where
  acceptToken : σ → Nat → σ
  reset : σ → σ
  isCompleted : σ → Bool
  computeAllowedTokens : σ → σ
  maskLogits : σ → List Score → List Score

/-- Modelled from the spec: `EngineGenerationConfig` lives in `config.py`,
outside `src/`; the spec gives `LaneConfig = {reset_on_completion: bool,
read_prompt: bool}` with default `{false, true}`. -/
structure EngineGenerationConfig where
  reset_on_completion : Bool := false
  read_prompt : Bool := true
deriving DecidableEq, Repr

/-- The state of a `FormattersLogitsProcessor`: the lanes' machines, the
shared EOS token id, `_last_input_id_length` and the per-lane configs. -/
structure ProcState (σ : Type) where
  formatters : List σ
  eosTokenId : Nat
  lastInputIdLength : Option Nat
  configs : List EngineGenerationConfig

/-- The value `input_ids.shape[1]` of a (uniform) batch of token-history rows. -/
def shape1 (inputIds : List (List Nat)) : Nat :=
  match inputIds with
  | [] => 0
  | r :: _ => r.length

/-- The first-call loop of `__call__`:
`for formatter, config, prompt in zip(self._formatters, self.configs, input_ids)`,
resetting a completed lane when `reset_on_completion` and then feeding every
prompt token when `read_prompt`. Lanes are numbered from `lane`; `zip`
truncates at the shortest sequence, leaving the remaining machines untouched. -/
def firstCallLoop {σ : Type} (m : FMachine σ) : Nat → List σ → List EngineGenerationConfig →
    List (List Nat) → List σ × List Event
  | _, fs, [], _ => (fs, [])
  | _, fs, _ :: _, [] => (fs, [])
  | _, [], _ :: _, _ :: _ => ([], [])
  | lane, f :: fs, c :: cs, prompt :: ps =>
    let f1 := if c.reset_on_completion && m.isCompleted f then m.reset f else f
    let evs1 := if c.reset_on_completion && m.isCompleted f then [Event.resetEv lane] else []
    let f2 := if c.read_prompt then prompt.foldl m.acceptToken f1 else f1
    let evs2 := if c.read_prompt then prompt.map (Event.accept lane) else []
    let rest := firstCallLoop m (lane + 1) fs cs ps
    (f2 :: rest.1, evs1 ++ evs2 ++ rest.2)

/-- The later-call loop of `__call__`:
`for formatter, input_id in zip(self._formatters, input_ids[:, -1])`, feeding
the newly appended token unless it is the EOS id. -/
def laterCallLoop {σ : Type} (m : FMachine σ) (eos : Nat) : Nat → List σ → List Nat →
    List σ × List Event
  | _, fs, [] => (fs, [])
  | _, [], _ :: _ => ([], [])
  | lane, f :: fs, t :: ts =>
    let f1 := if t ≠ eos then m.acceptToken f t else f
    let evs1 := if t ≠ eos then [Event.accept lane t] else []
    let rest := laterCallLoop m eos (lane + 1) fs ts
    (f1 :: rest.1, evs1 ++ rest.2)

/-- The masking loop of `__call__`: per lane in order, either force the row to
`-inf` everywhere and then write `0.0` at the EOS index (completed lane, with
`continue`, so no engine call is made), or call `compute_allowed_tokens` and
`mask_logits` and write the masked row back. Rows of the score matrix beyond
the lanes are left untouched. -/
def maskRows {σ : Type} (m : FMachine σ) (eos : Nat) : Nat → List σ → List (List Score) →
    List σ × List (List Score) × List Event
  | _, [], rows => ([], rows, [])
  | _, _ :: _, [] => ([], [], [])
  | lane, f :: fs, row :: rows =>
    if m.isCompleted f then
      let rest := maskRows m eos (lane + 1) fs rows
      (f :: rest.1, ((row.map fun _ => Score.negInf).set eos (Score.val 0)) :: rest.2.1,
        rest.2.2)
    else
      let f1 := m.computeAllowedTokens f
      let row1 := m.maskLogits f1 row
      let rest := maskRows m eos (lane + 1) fs rows
      (f1 :: rest.1, row1 :: rest.2.1,
        Event.computeAllowed lane :: Event.maskCall lane :: rest.2.2)

/-- The state-update phase of `__call__` (everything between the batch-size
assert and the masking loop): on the first call it establishes
`_last_input_id_length` and runs the reset/prompt-replay loop; on later calls
it asserts that exactly one token was appended, advances the length and feeds
each lane's newly appended token (`input_ids[:, -1]`) unless it is EOS.
A failed assert is `Except.error`, raised before any machine is touched. -/
def stateUpdate {σ : Type} (m : FMachine σ) (p : ProcState σ) (inputIds : List (List Nat)) :
    Except String (List σ × Nat × List Event) :=
  match p.lastInputIdLength with
  | none =>
    let r := firstCallLoop m 0 p.formatters p.configs inputIds
    Except.ok (r.1, shape1 inputIds, r.2)
  | some n =>
    if shape1 inputIds ≠ n + 1 then
      Except.error "One iteration in generation loop must add exactly one token."
    else
      let r := laterCallLoop m p.eosTokenId 0 p.formatters
        (inputIds.map fun row => row.getLastD 0)
      Except.ok (r.1, n + 1, r.2)

/-- Source `FormattersLogitsProcessor.__call__`: the batch-size assert (raised before
anything else happens), the state update, then the masking loop; returns the
new processor state, the written score matrix and the call trace. -/
def stepCall {σ : Type} (m : FMachine σ) (p : ProcState σ) (inputIds : List (List Nat))
    (scores : List (List Score)) :
    Except String (ProcState σ × List (List Score) × List Event) :=
  if inputIds.length ≠ p.formatters.length then
    Except.error "Number of formatters must match batch size"
  else
    match stateUpdate m p inputIds with
    | Except.error e => Except.error e
    | Except.ok (fs1, len1, evs1) =>
      let r := maskRows m p.eosTokenId 0 fs1 scores
      Except.ok ({ p with formatters := r.1, lastInputIdLength := some len1 }, r.2.1,
        evs1 ++ r.2.2)

/-- The effect of one state update on a single lane's machine, as a function
of that lane's own data (machine, config, token-history row) and the shared
controller constants only. -/
def laneUpdate {σ : Type} (m : FMachine σ) (eos : Nat) (lastLen : Option Nat)
    (f : σ) (c : EngineGenerationConfig) (hist : List Nat) : σ :=
  match lastLen with
  | none =>
    let f1 := if c.reset_on_completion && m.isCompleted f then m.reset f else f
    if c.read_prompt then hist.foldl m.acceptToken f1 else f1
  | some _ =>
    let t := hist.getLastD 0
    if t ≠ eos then m.acceptToken f t else f

/-- The effect of the masking phase on a single lane's machine and score row. -/
def laneMask {σ : Type} (m : FMachine σ) (eos : Nat) (f : σ) (row : List Score) :
    σ × List Score :=
  if m.isCompleted f then (f, (row.map fun _ => Score.negInf).set eos (Score.val 0))
  else
    let f1 := m.computeAllowedTokens f
    (f1, m.maskLogits f1 row)

/-- One full step restricted to a single lane. -/
def laneOutcome {σ : Type} (m : FMachine σ) (eos : Nat) (lastLen : Option Nat) (f : σ)
    (c : EngineGenerationConfig) (hist : List Nat) (row : List Score) : σ × List Score :=
  laneMask m eos (laneUpdate m eos lastLen f c hist) row

/-- The lane index an event belongs to. -/
def Event.lane : Event → Nat
  | .accept l _ => l
  | .resetEv l => l
  | .computeAllowed l => l
  | .maskCall l => l

/-- Is this event an `accept_token` call on lane `i`? -/
def isAcceptOf (i : Nat) : Event → Bool
  | .accept l _ => l == i
  | _ => false

/-- The `accept_token` calls made on lane `i`, in order. -/
def acceptsOfLane (i : Nat) (evs : List Event) : List Event :=
  evs.filter (isAcceptOf i)

/-- Is this event an engine call of the masking phase
(`compute_allowed_tokens` or `mask_logits`)? -/
def isEngineCall : Event → Bool
  | .computeAllowed _ => true
  | .maskCall _ => true
  | _ => false

theorem filter_accepts_map (i : Nat) (ts : List Nat) :
    (ts.map (Event.accept i)).filter (isAcceptOf i) = ts.map (Event.accept i) := by
  induction ts with
  | nil => rfl
  | cons t ts ih => simp [isAcceptOf, List.filter_cons, ih]

theorem filter_accepts_map_ne (i l : Nat) (hne : l ≠ i) (ts : List Nat) :
    (ts.map (Event.accept l)).filter (isAcceptOf i) = [] := by
  induction ts with
  | nil => rfl
  | cons t ts ih => simp [isAcceptOf, List.filter_cons, hne, ih]

/-- A tiny concrete state machine used to instantiate the theorems: the state
counts accepted tokens and the machine completes after two of them. -/
def natMachine : FMachine Nat where
  acceptToken := fun s _ => s + 1
  reset := fun _ => 0
  isCompleted := fun s => decide (2 ≤ s)
  computeAllowedTokens := fun s => s
  maskLogits := fun _ row => row

theorem isAcceptOf_lane (i : Nat) (e : Event) (h : isAcceptOf i e = true) : e.lane = i := by
  cases e with
  | accept l t => simpa [isAcceptOf, Event.lane] using h
  | resetEv l => simp [isAcceptOf] at h
  | computeAllowed l => simp [isAcceptOf] at h
  | maskCall l => simp [isAcceptOf] at h

theorem firstCallLoop_lane_lb {σ : Type} (m : FMachine σ) (k : Nat) (fs : List σ)
    (cs : List EngineGenerationConfig) (ps : List (List Nat)) :
    ∀ e ∈ (firstCallLoop m k fs cs ps).2, k ≤ e.lane := by
  induction fs generalizing k cs ps with
  | nil =>
    intro e he
    cases cs with
    | nil => simp [firstCallLoop] at he
    | cons c cs' =>
      cases ps with
      | nil => simp [firstCallLoop] at he
      | cons pr ps' => simp [firstCallLoop] at he
  | cons f fs' ih =>
    intro e he
    cases cs with
    | nil => simp [firstCallLoop] at he
    | cons c cs' =>
      cases ps with
      | nil => simp [firstCallLoop] at he
      | cons pr ps' =>
        simp only [firstCallLoop, List.mem_append] at he
        rcases he with (he | he) | he
        · split at he
          · rcases List.mem_singleton.mp he with rfl
            exact Nat.le_refl k
          · simp at he
        · split at he
          · rcases List.mem_map.mp he with ⟨t, _, rfl⟩
            exact Nat.le_refl k
          · simp at he
        · exact Nat.le_of_succ_le (ih (k + 1) cs' ps' e he)

theorem laterCallLoop_lane_lb {σ : Type} (m : FMachine σ) (eos k : Nat) (fs : List σ)
    (ts : List Nat) :
    ∀ e ∈ (laterCallLoop m eos k fs ts).2, k ≤ e.lane := by
  induction fs generalizing k ts with
  | nil =>
    intro e he
    cases ts with
    | nil => simp [laterCallLoop] at he
    | cons t ts' => simp [laterCallLoop] at he
  | cons f fs' ih =>
    intro e he
    cases ts with
    | nil => simp [laterCallLoop] at he
    | cons t ts' =>
      simp only [laterCallLoop, List.mem_append] at he
      rcases he with he | he
      · split at he
        · rcases List.mem_singleton.mp he with rfl
          exact Nat.le_refl k
        · simp at he
      · exact Nat.le_of_succ_le (ih (k + 1) ts' e he)

theorem maskRows_lane_lb {σ : Type} (m : FMachine σ) (eos k : Nat) (fs : List σ)
    (rows : List (List Score)) :
    ∀ e ∈ (maskRows m eos k fs rows).2.2, k ≤ e.lane := by
  induction fs generalizing k rows with
  | nil =>
    intro e he
    simp [maskRows] at he
  | cons f fs' ih =>
    intro e he
    cases rows with
    | nil => simp [maskRows] at he
    | cons row rows' =>
      simp only [maskRows] at he
      split at he
      · exact Nat.le_of_succ_le (ih (k + 1) rows' e he)
      · simp only [List.mem_cons] at he
        rcases he with rfl | rfl | he
        · exact Nat.le_refl k
        · exact Nat.le_refl k
        · exact Nat.le_of_succ_le (ih (k + 1) rows' e he)

theorem firstCallLoop_no_engine {σ : Type} (m : FMachine σ) (k : Nat) (fs : List σ)
    (cs : List EngineGenerationConfig) (ps : List (List Nat)) :
    ∀ e ∈ (firstCallLoop m k fs cs ps).2, isEngineCall e = false := by
  induction fs generalizing k cs ps with
  | nil =>
    intro e he
    cases cs with
    | nil => simp [firstCallLoop] at he
    | cons c cs' =>
      cases ps with
      | nil => simp [firstCallLoop] at he
      | cons pr ps' => simp [firstCallLoop] at he
  | cons f fs' ih =>
    intro e he
    cases cs with
    | nil => simp [firstCallLoop] at he
    | cons c cs' =>
      cases ps with
      | nil => simp [firstCallLoop] at he
      | cons pr ps' =>
        simp only [firstCallLoop, List.mem_append] at he
        rcases he with (he | he) | he
        · split at he
          · rcases List.mem_singleton.mp he with rfl
            rfl
          · simp at he
        · split at he
          · rcases List.mem_map.mp he with ⟨t, _, rfl⟩
            rfl
          · simp at he
        · exact ih (k + 1) cs' ps' e he

theorem laterCallLoop_no_engine {σ : Type} (m : FMachine σ) (eos k : Nat) (fs : List σ)
    (ts : List Nat) :
    ∀ e ∈ (laterCallLoop m eos k fs ts).2, isEngineCall e = false := by
  induction fs generalizing k ts with
  | nil =>
    intro e he
    cases ts with
    | nil => simp [laterCallLoop] at he
    | cons t ts' => simp [laterCallLoop] at he
  | cons f fs' ih =>
    intro e he
    cases ts with
    | nil => simp [laterCallLoop] at he
    | cons t ts' =>
      simp only [laterCallLoop, List.mem_append] at he
      rcases he with he | he
      · split at he
        · rcases List.mem_singleton.mp he with rfl
          rfl
        · simp at he
      · exact ih (k + 1) ts' e he

theorem mapNegInf_get (l : List Score) (j : Nat) (hj : j < l.length) :
    (l.map fun _ => Score.negInf).get? j = some Score.negInf := by
  induction l generalizing j with
  | nil => simp at hj
  | cons a l ih =>
    cases j with
    | zero => rfl
    | succ j' => exact ih j' (Nat.lt_of_succ_lt_succ (by simpa using hj))

theorem forcedRow_get_ne (l : List Score) (e j : Nat) (hj : j < l.length) (hne : j ≠ e) :
    ((l.map fun _ => Score.negInf).set e (Score.val 0)).get? j = some Score.negInf := by
  induction l generalizing e j with
  | nil => simp at hj
  | cons a l ih =>
    cases j with
    | zero =>
      cases e with
      | zero => exact absurd rfl hne
      | succ e' => rfl
    | succ j' =>
      cases e with
      | zero => exact mapNegInf_get l j' (Nat.lt_of_succ_lt_succ (by simpa using hj))
      | succ e' =>
        exact ih e' j' (Nat.lt_of_succ_lt_succ (by simpa using hj))
          (fun h => hne (congrArg Nat.succ h))

theorem forcedRow_get_eq (l : List Score) (e : Nat) (he : e < l.length) :
    ((l.map fun _ => Score.negInf).set e (Score.val 0)).get? e = some (Score.val 0) := by
  induction l generalizing e with
  | nil => simp at he
  | cons a l ih =>
    cases e with
    | zero => rfl
    | succ e' => exact ih e' (Nat.lt_of_succ_lt_succ (by simpa using he))

theorem firstCallLoop_get? {σ : Type} (m : FMachine σ) (eos k : Nat) (fs : List σ)
    (cs : List EngineGenerationConfig) (ps : List (List Nat)) (i : Nat) (f : σ)
    (c : EngineGenerationConfig) (pr : List Nat)
    (hf : fs.get? i = some f) (hc : cs.get? i = some c) (hp : ps.get? i = some pr) :
    (firstCallLoop m k fs cs ps).1.get? i = some (laneUpdate m eos none f c pr) := by
  induction fs generalizing k cs ps i with
  | nil => simp [List.get?] at hf
  | cons f0 fs' ih =>
    cases cs with
    | nil => simp [List.get?] at hc
    | cons c0 cs' =>
      cases ps with
      | nil => simp [List.get?] at hp
      | cons p0 ps' =>
        cases i with
        | zero =>
          simp only [List.get?] at hf hc hp
          injection hf with hf
          injection hc with hc
          injection hp with hp
          subst hf hc hp
          rfl
        | succ i' =>
          simp only [List.get?] at hf hc hp
          exact ih (k + 1) cs' ps' i' hf hc hp

theorem laterCallLoop_get? {σ : Type} (m : FMachine σ) (eos k : Nat) (fs : List σ)
    (ts : List Nat) (i : Nat) (f : σ) (t : Nat)
    (hf : fs.get? i = some f) (ht : ts.get? i = some t) :
    (laterCallLoop m eos k fs ts).1.get? i =
      some (if t ≠ eos then m.acceptToken f t else f) := by
  induction fs generalizing k ts i with
  | nil => simp [List.get?] at hf
  | cons f0 fs' ih =>
    cases ts with
    | nil => simp [List.get?] at ht
    | cons t0 ts' =>
      cases i with
      | zero =>
        simp only [List.get?] at hf ht
        injection hf with hf
        injection ht with ht
        subst hf ht
        rfl
      | succ i' =>
        simp only [List.get?] at hf ht
        exact ih (k + 1) ts' i' hf ht

theorem maskRows_get? {σ : Type} (m : FMachine σ) (eos k : Nat) (fs : List σ)
    (rows : List (List Score)) (i : Nat) (f : σ) (row : List Score)
    (hf : fs.get? i = some f) (hr : rows.get? i = some row) :
    (maskRows m eos k fs rows).1.get? i = some (laneMask m eos f row).1 ∧
    (maskRows m eos k fs rows).2.1.get? i = some (laneMask m eos f row).2 := by
  induction fs generalizing k rows i with
  | nil => simp [List.get?] at hf
  | cons f0 fs' ih =>
    cases rows with
    | nil => simp [List.get?] at hr
    | cons row0 rows' =>
      cases i with
      | zero =>
        simp only [List.get?] at hf hr
        injection hf with hf
        injection hr with hr
        subst hf hr
        cases hcm : m.isCompleted f0 with
        | false => simp [maskRows, laneMask, hcm, List.get?]
        | true => simp [maskRows, laneMask, hcm, List.get?]
      | succ i' =>
        simp only [List.get?] at hf hr
        cases hcm : m.isCompleted f0 with
        | false =>
          simpa [maskRows, hcm, List.get?] using ih (k + 1) rows' i' hf hr
        | true =>
          simpa [maskRows, hcm, List.get?] using ih (k + 1) rows' i' hf hr

theorem maskRows_engine_only {σ : Type} (m : FMachine σ) (eos k : Nat) (fs : List σ)
    (rows : List (List Score)) :
    ∀ e ∈ (maskRows m eos k fs rows).2.2, isEngineCall e = true := by
  induction fs generalizing k rows with
  | nil =>
    intro e he
    simp [maskRows] at he
  | cons f fs' ih =>
    intro e he
    cases rows with
    | nil => simp [maskRows] at he
    | cons row rows' =>
      simp only [maskRows] at he
      split at he
      · exact ih (k + 1) rows' e he
      · simp only [List.mem_cons] at he
        rcases he with rfl | rfl | he
        · rfl
        · rfl
        · exact ih (k + 1) rows' e he

theorem firstCallLoop_accepts {σ : Type} (m : FMachine σ) (k : Nat) (fs : List σ)
    (cs : List EngineGenerationConfig) (ps : List (List Nat)) (i : Nat) (f : σ)
    (c : EngineGenerationConfig) (pr : List Nat)
    (hf : fs.get? i = some f) (hc : cs.get? i = some c) (hp : ps.get? i = some pr) :
    acceptsOfLane (k + i) (firstCallLoop m k fs cs ps).2 =
      if c.read_prompt then pr.map (Event.accept (k + i)) else [] := by
  induction fs generalizing k cs ps i with
  | nil => simp [List.get?] at hf
  | cons f0 fs' ih =>
    cases cs with
    | nil => simp [List.get?] at hc
    | cons c0 cs' =>
      cases ps with
      | nil => simp [List.get?] at hp
      | cons p0 ps' =>
        have hrest : ∀ j, j ≤ k →
            (firstCallLoop m (k + 1) fs' cs' ps').2.filter (isAcceptOf j) = [] := by
          intro j hj
          refine List.filter_eq_nil_iff.mpr ?_
          intro e he hacc
          have h1 := firstCallLoop_lane_lb m (k + 1) fs' cs' ps' e he
          have h2 := isAcceptOf_lane j e hacc
          omega
        cases i with
        | zero =>
          simp only [List.get?] at hf hc hp
          injection hf with hf
          injection hc with hc
          injection hp with hp
          subst hf hc hp
          simp only [firstCallLoop, acceptsOfLane, List.filter_append, Nat.add_zero]
          rw [hrest k (Nat.le_refl k)]
          cases hrc : c0.reset_on_completion && m.isCompleted f0 with
          | false =>
            cases hrp : c0.read_prompt with
            | false => simp [hrc, hrp]
            | true => simp [hrc, hrp, filter_accepts_map]
          | true =>
            cases hrp : c0.read_prompt with
            | false => simp [hrc, hrp, isAcceptOf, List.filter_cons]
            | true => simp [hrc, hrp, isAcceptOf, List.filter_cons, filter_accepts_map]
        | succ i' =>
          simp only [List.get?] at hf hc hp
          have heq : k + (i' + 1) = (k + 1) + i' := by omega
          have ihh := ih (k + 1) cs' ps' i' hf hc hp
          simp only [acceptsOfLane] at ihh
          rw [heq]
          simp only [firstCallLoop, acceptsOfLane, List.filter_append]
          have hneq : k ≠ (k + 1) + i' := by omega
          rw [ihh]
          cases hrc : c0.reset_on_completion && m.isCompleted f0 with
          | false =>
            cases hrp : c0.read_prompt with
            | false => simp [hrc, hrp]
            | true => simp [hrc, hrp, filter_accepts_map_ne _ _ hneq]
          | true =>
            cases hrp : c0.read_prompt with
            | false => simp [hrc, hrp, isAcceptOf, List.filter_cons, hneq]
            | true =>
              simp [hrc, hrp, isAcceptOf, List.filter_cons, hneq,
                filter_accepts_map_ne _ _ hneq]

theorem laterCallLoop_accepts {σ : Type} (m : FMachine σ) (eos k : Nat) (fs : List σ)
    (ts : List Nat) (i : Nat) (f : σ) (t : Nat)
    (hf : fs.get? i = some f) (ht : ts.get? i = some t) :
    acceptsOfLane (k + i) (laterCallLoop m eos k fs ts).2 =
      if t ≠ eos then [Event.accept (k + i) t] else [] := by
  induction fs generalizing k ts i with
  | nil => simp [List.get?] at hf
  | cons f0 fs' ih =>
    cases ts with
    | nil => simp [List.get?] at ht
    | cons t0 ts' =>
      have hrest : ∀ j, j ≤ k →
          (laterCallLoop m eos (k + 1) fs' ts').2.filter (isAcceptOf j) = [] := by
        intro j hj
        refine List.filter_eq_nil_iff.mpr ?_
        intro e he hacc
        have h1 := laterCallLoop_lane_lb m eos (k + 1) fs' ts' e he
        have h2 := isAcceptOf_lane j e hacc
        omega
      cases i with
      | zero =>
        simp only [List.get?] at hf ht
        injection hf with hf
        injection ht with ht
        subst hf ht
        simp only [laterCallLoop, acceptsOfLane, List.filter_append, Nat.add_zero]
        rw [hrest k (Nat.le_refl k)]
        by_cases ht0 : t0 = eos
        · simp [ht0]
        · simp [ht0, isAcceptOf, List.filter_cons]
      | succ i' =>
        simp only [List.get?] at hf ht
        have heq : k + (i' + 1) = (k + 1) + i' := by omega
        have ihh := ih (k + 1) ts' i' hf ht
        simp only [acceptsOfLane] at ihh
        rw [heq]
        simp only [laterCallLoop, acceptsOfLane, List.filter_append]
        have hneq : k ≠ (k + 1) + i' := by omega
        rw [ihh]
        by_cases ht0 : t0 = eos
        · simp [ht0]
        · simp [ht0, isAcceptOf, List.filter_cons, hneq]

theorem firstCallLoop_resetEv {σ : Type} (m : FMachine σ) (k : Nat) (fs : List σ)
    (cs : List EngineGenerationConfig) (ps : List (List Nat)) (i : Nat) (f : σ)
    (c : EngineGenerationConfig) (pr : List Nat)
    (hf : fs.get? i = some f) (hc : cs.get? i = some c) (hp : ps.get? i = some pr) :
    (Event.resetEv (k + i) ∈ (firstCallLoop m k fs cs ps).2 ↔
      (c.reset_on_completion && m.isCompleted f) = true) := by
  induction fs generalizing k cs ps i with
  | nil => simp [List.get?] at hf
  | cons f0 fs' ih =>
    cases cs with
    | nil => simp [List.get?] at hc
    | cons c0 cs' =>
      cases ps with
      | nil => simp [List.get?] at hp
      | cons p0 ps' =>
        have hrest : ∀ j, j ≤ k →
            Event.resetEv j ∉ (firstCallLoop m (k + 1) fs' cs' ps').2 := by
          intro j hj hmem
          have h1 := firstCallLoop_lane_lb m (k + 1) fs' cs' ps' _ hmem
          simp only [Event.lane] at h1
          omega
        have hmap : ∀ (l : Nat) (ts : List Nat) (j : Nat),
            Event.resetEv j ∉ ts.map (Event.accept l) := by
          intro l ts j hmem
          rcases List.mem_map.mp hmem with ⟨t0, _, habs⟩
          exact Event.noConfusion habs
        cases i with
        | zero =>
          simp only [List.get?] at hf hc hp
          injection hf with hf
          injection hc with hc
          injection hp with hp
          subst hf hc hp
          simp only [firstCallLoop, List.mem_append, Nat.add_zero]
          constructor
          · rintro ((hmem | hmem) | hmem)
            · split at hmem
              · assumption
              · simp at hmem
            · split at hmem
              · exact absurd hmem (hmap _ _ _)
              · simp at hmem
            · exact absurd hmem (hrest k (Nat.le_refl k))
          · intro hcond
            refine Or.inl (Or.inl ?_)
            simp [hcond]
        | succ i' =>
          simp only [List.get?] at hf hc hp
          have heq : k + (i' + 1) = (k + 1) + i' := by omega
          have ihh := ih (k + 1) cs' ps' i' hf hc hp
          rw [heq, ← ihh]
          simp only [firstCallLoop, List.mem_append]
          have hneq : (k + 1) + i' ≠ k := by omega
          constructor
          · rintro ((hmem | hmem) | hmem)
            · split at hmem
              · have h1 := List.mem_singleton.mp hmem
                injection h1 with h1
                exact absurd h1 hneq
              · simp at hmem
            · split at hmem
              · exact absurd hmem (hmap _ _ _)
              · simp at hmem
            · exact hmem
          · intro hmem
            exact Or.inr hmem

theorem maskRows_completed_no_engine {σ : Type} (m : FMachine σ) (eos k : Nat)
    (fs : List σ) (rows : List (List Score)) (i : Nat) (f : σ) (row : List Score)
    (hf : fs.get? i = some f) (hr : rows.get? i = some row)
    (hcomp : m.isCompleted f = true) :
    Event.computeAllowed (k + i) ∉ (maskRows m eos k fs rows).2.2 ∧
    Event.maskCall (k + i) ∉ (maskRows m eos k fs rows).2.2 := by
  induction fs generalizing k rows i with
  | nil => simp [List.get?] at hf
  | cons f0 fs' ih =>
    cases rows with
    | nil => simp [List.get?] at hr
    | cons row0 rows' =>
      cases i with
      | zero =>
        simp only [List.get?] at hf hr
        injection hf with hf
        injection hr with hr
        subst hf hr
        simp only [maskRows, hcomp, if_true, Nat.add_zero]
        constructor
        · intro hmem
          have h1 := maskRows_lane_lb m eos (k + 1) fs' rows' _ hmem
          simp only [Event.lane] at h1
          omega
        · intro hmem
          have h1 := maskRows_lane_lb m eos (k + 1) fs' rows' _ hmem
          simp only [Event.lane] at h1
          omega
      | succ i' =>
        simp only [List.get?] at hf hr
        have heq : k + (i' + 1) = (k + 1) + i' := by omega
        have ihh := ih (k + 1) rows' i' hf hr
        rw [heq]
        cases hcm : m.isCompleted f0 with
        | true => simpa [maskRows, hcm] using ihh
        | false =>
          have hgoal : (maskRows m eos k (f0 :: fs') (row0 :: rows')).2.2 =
              Event.computeAllowed k :: Event.maskCall k ::
                (maskRows m eos (k + 1) fs' rows').2.2 := by
            simp [maskRows, hcm]
          rw [hgoal]
          refine ⟨fun hmem => ?_, fun hmem => ?_⟩
          · rcases List.mem_cons.mp hmem with h1 | hmem'
            · injection h1 with h1
              omega
            · rcases List.mem_cons.mp hmem' with h1 | hmem''
              · exact Event.noConfusion h1
              · exact ihh.1 hmem''
          · rcases List.mem_cons.mp hmem with h1 | hmem'
            · exact Event.noConfusion h1
            · rcases List.mem_cons.mp hmem' with h1 | hmem''
              · injection h1 with h1
                omega
              · exact ihh.2 hmem''

theorem acceptsOfLane_append (i : Nat) (l1 l2 : List Event) :
    acceptsOfLane i (l1 ++ l2) = acceptsOfLane i l1 ++ acceptsOfLane i l2 :=
  List.filter_append l1 l2

theorem stepCall_ok_parts {σ : Type} (m : FMachine σ) (p : ProcState σ)
    (inputIds : List (List Nat)) (scores : List (List Score)) (p' : ProcState σ)
    (scores' : List (List Score)) (evs : List Event)
    (hstep : stepCall m p inputIds scores = Except.ok (p', scores', evs)) :
    ∃ fs1 len1 evs1, stateUpdate m p inputIds = Except.ok (fs1, len1, evs1) ∧
      p'.formatters = (maskRows m p.eosTokenId 0 fs1 scores).1 ∧
      p'.eosTokenId = p.eosTokenId ∧
      p'.lastInputIdLength = some len1 ∧
      p'.configs = p.configs ∧
      scores' = (maskRows m p.eosTokenId 0 fs1 scores).2.1 ∧
      evs = evs1 ++ (maskRows m p.eosTokenId 0 fs1 scores).2.2 := by
  by_cases hg : inputIds.length ≠ p.formatters.length
  · rw [stepCall, if_pos hg] at hstep
    exact absurd hstep (by simp)
  · rw [stepCall, if_neg hg] at hstep
    cases hsu : stateUpdate m p inputIds with
    | error e =>
      rw [hsu] at hstep
      exact absurd hstep (by simp)
    | ok v =>
      obtain ⟨fs1, len1, evs1⟩ := v
      rw [hsu] at hstep
      simp only [Except.ok.injEq, Prod.mk.injEq] at hstep
      obtain ⟨h1, h2, h3⟩ := hstep
      refine ⟨fs1, len1, evs1, rfl, ?_, ?_, ?_, ?_, h2.symm, h3.symm⟩
      · rw [← h1]
      · rw [← h1]
      · rw [← h1]
      · rw [← h1]

theorem stateUpdate_none_parts {σ : Type} (m : FMachine σ) (p : ProcState σ)
    (inputIds : List (List Nat)) (fs1 : List σ) (len1 : Nat) (evs1 : List Event)
    (hlast : p.lastInputIdLength = none)
    (hsu : stateUpdate m p inputIds = Except.ok (fs1, len1, evs1)) :
    fs1 = (firstCallLoop m 0 p.formatters p.configs inputIds).1 ∧
    len1 = shape1 inputIds ∧
    evs1 = (firstCallLoop m 0 p.formatters p.configs inputIds).2 := by
  rw [stateUpdate, hlast] at hsu
  simp only [Except.ok.injEq, Prod.mk.injEq] at hsu
  exact ⟨hsu.1.symm, hsu.2.1.symm, hsu.2.2.symm⟩

theorem stateUpdate_some_parts {σ : Type} (m : FMachine σ) (p : ProcState σ)
    (inputIds : List (List Nat)) (fs1 : List σ) (len1 : Nat) (evs1 : List Event) (n : Nat)
    (hlast : p.lastInputIdLength = some n)
    (hsu : stateUpdate m p inputIds = Except.ok (fs1, len1, evs1)) :
    shape1 inputIds = n + 1 ∧
    fs1 = (laterCallLoop m p.eosTokenId 0 p.formatters
      (inputIds.map fun row => row.getLastD 0)).1 ∧
    len1 = n + 1 ∧
    evs1 = (laterCallLoop m p.eosTokenId 0 p.formatters
      (inputIds.map fun row => row.getLastD 0)).2 := by
  simp only [stateUpdate, hlast] at hsu
  by_cases hs : shape1 inputIds ≠ n + 1
  · rw [if_pos hs] at hsu
    exact absurd hsu (by simp)
  · rw [if_neg hs] at hsu
    rw [not_ne_iff] at hs
    simp only [Except.ok.injEq, Prod.mk.injEq] at hsu
    exact ⟨hs, hsu.1.symm, hsu.2.1.symm, hsu.2.2.symm⟩

theorem stateUpdate_no_engine {σ : Type} (m : FMachine σ) (p : ProcState σ)
    (inputIds : List (List Nat)) (fs1 : List σ) (len1 : Nat) (evs1 : List Event)
    (hsu : stateUpdate m p inputIds = Except.ok (fs1, len1, evs1)) :
    ∀ e ∈ evs1, isEngineCall e = false := by
  cases hlast : p.lastInputIdLength with
  | none =>
    obtain ⟨-, -, hev⟩ := stateUpdate_none_parts m p inputIds fs1 len1 evs1 hlast hsu
    rw [hev]
    exact firstCallLoop_no_engine m 0 _ _ _
  | some n =>
    obtain ⟨-, -, -, hev⟩ := stateUpdate_some_parts m p inputIds fs1 len1 evs1 n hlast hsu
    rw [hev]
    exact laterCallLoop_no_engine m _ 0 _ _

theorem maskRows_no_accepts (σ : Type) (m : FMachine σ) (eos : Nat) (fs1 : List σ)
    (scores : List (List Score)) (i : Nat) :
    acceptsOfLane i (maskRows m eos 0 fs1 scores).2.2 = [] := by
  refine List.filter_eq_nil_iff.mpr ?_
  intro e he hacc
  have h1 := maskRows_engine_only m eos 0 fs1 scores e he
  cases e with
  | accept l t => simp [isEngineCall] at h1
  | resetEv l => simp [isAcceptOf] at hacc
  | computeAllowed l => simp [isAcceptOf] at hacc
  | maskCall l => simp [isAcceptOf] at hacc

/-- C1: on any controller step, a lane whose state machine reports completed
after the state update has its entire score row forced to negative infinity at
every vocabulary position except the EOS id, which is forced to the neutral
score `0.0`, and neither `compute_allowed_tokens` nor `mask_logits` is called
for that lane. -/
theorem completed_lane_eos_only {σ : Type} (m : FMachine σ) (p : ProcState σ)
    (inputIds : List (List Nat)) (scores : List (List Score)) (p' : ProcState σ)
    (scores' : List (List Score)) (evs : List Event) (fs1 : List σ) (len1 : Nat)
    (evs1 : List Event) (i : Nat) (f : σ) (srow : List Score)
    (hupd : stateUpdate m p inputIds = Except.ok (fs1, len1, evs1))
    (hstep : stepCall m p inputIds scores = Except.ok (p', scores', evs))
    (hf : fs1.get? i = some f) (hcomp : m.isCompleted f = true)
    (hs : scores.get? i = some srow) :
    scores'.get? i =
      some ((srow.map fun _ => Score.negInf).set p.eosTokenId (Score.val 0)) ∧
    (∀ j, j < srow.length → j ≠ p.eosTokenId →
      (scores'.getD i []).get? j = some Score.negInf) ∧
    (p.eosTokenId < srow.length →
      (scores'.getD i []).get? p.eosTokenId = some (Score.val 0)) ∧
    Event.computeAllowed i ∉ evs ∧ Event.maskCall i ∉ evs := by
  obtain ⟨fs1', len1', evs1', hsu, hpf, hpe, hpl, hpc, hsc, hev⟩ :=
    stepCall_ok_parts m p inputIds scores p' scores' evs hstep
  rw [hupd] at hsu
  simp only [Except.ok.injEq, Prod.mk.injEq] at hsu
  obtain ⟨rfl, rfl, rfl⟩ := hsu
  have hmg := maskRows_get? m p.eosTokenId 0 fs1 scores i f srow hf hs
  have hrow : scores'.get? i =
      some ((srow.map fun _ => Score.negInf).set p.eosTokenId (Score.val 0)) := by
    rw [hsc]
    have h2 := hmg.2
    rwa [laneMask, if_pos hcomp] at h2
  have hgetD : scores'.getD i [] =
      (srow.map fun _ => Score.negInf).set p.eosTokenId (Score.val 0) := by
    rw [List.getD_eq_get?, hrow]
    rfl
  refine ⟨hrow, ?_, ?_, ?_, ?_⟩
  · intro j hj hne
    rw [hgetD]
    exact forcedRow_get_ne srow p.eosTokenId j hj hne
  · intro he
    rw [hgetD]
    exact forcedRow_get_eq srow p.eosTokenId he
  · rw [hev]
    intro hmem
    rcases List.mem_append.mp hmem with hmem | hmem
    · have h1 := stateUpdate_no_engine m p inputIds fs1 len1 evs1 hupd _ hmem
      simp [isEngineCall] at h1
    · have h2 := maskRows_completed_no_engine m p.eosTokenId 0 fs1 scores i f srow hf hs hcomp
      rw [Nat.zero_add] at h2
      exact h2.1 hmem
  · rw [hev]
    intro hmem
    rcases List.mem_append.mp hmem with hmem | hmem
    · have h1 := stateUpdate_no_engine m p inputIds fs1 len1 evs1 hupd _ hmem
      simp [isEngineCall] at h1
    · have h2 := maskRows_completed_no_engine m p.eosTokenId 0 fs1 scores i f srow hf hs hcomp
      rw [Nat.zero_add] at h2
      exact h2.2 hmem

theorem completed_lane_eos_only_witness :
    ([[Score.negInf, Score.val 0, Score.negInf]] : List (List Score)).get? 0 =
      some (([Score.val 5, Score.val 6, Score.val 7].map fun _ => Score.negInf).set 1
        (Score.val 0)) :=
  (completed_lane_eos_only natMachine ⟨[2], 1, none, [⟨false, false⟩]⟩ [[7]]
    [[Score.val 5, Score.val 6, Score.val 7]] ⟨[2], 1, some 1, [⟨false, false⟩]⟩
    [[Score.negInf, Score.val 0, Score.negInf]] [] [2] 1 [] 0 2
    [Score.val 5, Score.val 6, Score.val 7] rfl rfl rfl rfl rfl).1

/-- C2: on any controller step after the first, each lane's state machine
receives exactly one `accept_token` call, carrying that lane's newly appended
token (`input_ids[:, -1]`), unless that token equals the shared EOS id, in
which case no `accept_token` call is made for the lane at all. -/
theorem later_call_single_accept {σ : Type} (m : FMachine σ) (p : ProcState σ)
    (inputIds : List (List Nat)) (scores : List (List Score)) (p' : ProcState σ)
    (scores' : List (List Score)) (evs : List Event) (n i : Nat) (f : σ) (hist : List Nat)
    (hlast : p.lastInputIdLength = some n)
    (hstep : stepCall m p inputIds scores = Except.ok (p', scores', evs))
    (hf : p.formatters.get? i = some f)
    (hhist : inputIds.get? i = some hist) :
    (hist.getLastD 0 = p.eosTokenId → acceptsOfLane i evs = []) ∧
    (hist.getLastD 0 ≠ p.eosTokenId →
      acceptsOfLane i evs = [Event.accept i (hist.getLastD 0)]) := by
  obtain ⟨fs1, len1, evs1, hsu, hpf, hpe, hpl, hpc, hsc, hev⟩ :=
    stepCall_ok_parts m p inputIds scores p' scores' evs hstep
  obtain ⟨hsh, hfs, hlen, hev1⟩ :=
    stateUpdate_some_parts m p inputIds fs1 len1 evs1 n hlast hsu
  have ht : (inputIds.map fun row => row.getLastD 0).get? i = some (hist.getLastD 0) := by
    rw [List.get?_map, hhist]
    rfl
  have hacc := laterCallLoop_accepts m p.eosTokenId 0 p.formatters
    (inputIds.map fun row => row.getLastD 0) i f (hist.getLastD 0) hf ht
  rw [Nat.zero_add] at hacc
  have hdecomp : acceptsOfLane i evs =
      if hist.getLastD 0 ≠ p.eosTokenId then [Event.accept i (hist.getLastD 0)]
      else [] := by
    rw [hev, acceptsOfLane_append, maskRows_no_accepts, List.append_nil, hev1, hacc]
  constructor
  · intro hcase
    rw [hdecomp, if_neg (not_not_intro hcase)]
  · intro hcase
    rw [hdecomp, if_pos hcase]

theorem later_call_single_accept_witness :
    acceptsOfLane 0 [Event.accept 0 4] = [Event.accept 0 4] :=
  (later_call_single_accept natMachine ⟨[5], 9, some 1, [⟨false, true⟩]⟩ [[3, 4]]
    [[Score.val 1]] ⟨[6], 9, some 2, [⟨false, true⟩]⟩ [[Score.negInf]]
    [Event.accept 0 4] 1 0 5 [3, 4] rfl rfl rfl rfl).2 (by decide)

/-- C3: on the very first controller call, a lane's machine is reset exactly
when `reset_on_completion` holds and the machine is completed; then, when
`read_prompt` holds, every prompt token of the lane is fed through
`accept_token` in prompt order, and when it does not, the first call performs
no `accept_token` call for that lane. -/
theorem first_call_prompt_replay {σ : Type} (m : FMachine σ) (p : ProcState σ)
    (inputIds : List (List Nat)) (scores : List (List Score)) (p' : ProcState σ)
    (scores' : List (List Score)) (evs : List Event) (i : Nat) (f : σ)
    (c : EngineGenerationConfig) (hist : List Nat)
    (hlast : p.lastInputIdLength = none)
    (hstep : stepCall m p inputIds scores = Except.ok (p', scores', evs))
    (hf : p.formatters.get? i = some f)
    (hc : p.configs.get? i = some c)
    (hhist : inputIds.get? i = some hist) :
    (Event.resetEv i ∈ evs ↔ (c.reset_on_completion && m.isCompleted f) = true) ∧
    (c.read_prompt = true → acceptsOfLane i evs = hist.map (Event.accept i)) ∧
    (c.read_prompt = false → acceptsOfLane i evs = []) := by
  obtain ⟨fs1, len1, evs1, hsu, hpf, hpe, hpl, hpc, hsc, hev⟩ :=
    stepCall_ok_parts m p inputIds scores p' scores' evs hstep
  obtain ⟨hfs, hlen, hev1⟩ := stateUpdate_none_parts m p inputIds fs1 len1 evs1 hlast hsu
  have hreset := firstCallLoop_resetEv m 0 p.formatters p.configs inputIds i f c hist
    hf hc hhist
  rw [Nat.zero_add] at hreset
  have haccs := firstCallLoop_accepts m 0 p.formatters p.configs inputIds i f c hist
    hf hc hhist
  rw [Nat.zero_add] at haccs
  have hnomaskreset : Event.resetEv i ∉ (maskRows m p.eosTokenId 0 fs1 scores).2.2 := by
    intro hmem
    have h1 := maskRows_engine_only m p.eosTokenId 0 fs1 scores _ hmem
    simp [isEngineCall] at h1
  have hdecomp : acceptsOfLane i evs =
      if c.read_prompt then hist.map (Event.accept i) else [] := by
    rw [hev, acceptsOfLane_append, maskRows_no_accepts, List.append_nil, hev1, haccs]
  refine ⟨?_, ?_, ?_⟩
  · rw [hev]
    constructor
    · intro hmem
      rcases List.mem_append.mp hmem with hmem | hmem
      · rw [hev1] at hmem
        exact hreset.mp hmem
      · exact absurd hmem hnomaskreset
    · intro hcond
      refine List.mem_append.mpr (Or.inl ?_)
      rw [hev1]
      exact hreset.mpr hcond
  · intro hrp
    rw [hdecomp, if_pos hrp]
  · intro hrp
    rw [hdecomp, if_neg (by simp [hrp])]

theorem first_call_prompt_replay_witness :
    acceptsOfLane 0 [Event.accept 0 1, Event.accept 0 2] =
      [1, 2].map (Event.accept 0) :=
  (first_call_prompt_replay natMachine ⟨[0], 9, none, [⟨true, true⟩]⟩ [[1, 2]]
    [[Score.val 1, Score.val 2]] ⟨[2], 9, some 2, [⟨true, true⟩]⟩
    [[Score.negInf, Score.negInf]] [Event.accept 0 1, Event.accept 0 2] 0 0
    ⟨true, true⟩ [1, 2] rfl rfl rfl rfl rfl).2.1 rfl

/-- C9: lane independence of the controller step: on a successful call, lane
`i`'s resulting state machine and score row are exactly the per-lane function
`laneOutcome` of lane `i`'s own machine, config, token-history row and input
score row (together with the controller's shared constants), independently of
every other lane's data. -/
theorem step_lane_independence {σ : Type} (m : FMachine σ) (p : ProcState σ)
    (inputIds : List (List Nat)) (scores : List (List Score)) (p' : ProcState σ)
    (scores' : List (List Score)) (evs : List Event) (i : Nat) (f : σ)
    (c : EngineGenerationConfig) (hist : List Nat) (srow : List Score)
    (hstep : stepCall m p inputIds scores = Except.ok (p', scores', evs))
    (hf : p.formatters.get? i = some f)
    (hc : p.configs.get? i = some c)
    (hhist : inputIds.get? i = some hist)
    (hsrow : scores.get? i = some srow) :
    p'.formatters.get? i =
      some (laneOutcome m p.eosTokenId p.lastInputIdLength f c hist srow).1 ∧
    scores'.get? i =
      some (laneOutcome m p.eosTokenId p.lastInputIdLength f c hist srow).2 := by
  obtain ⟨fs1, len1, evs1, hsu, hpf, hpe, hpl, hpc, hsc, hev⟩ :=
    stepCall_ok_parts m p inputIds scores p' scores' evs hstep
  cases hlast : p.lastInputIdLength with
  | none =>
    obtain ⟨hfs, hlen, hev1⟩ := stateUpdate_none_parts m p inputIds fs1 len1 evs1 hlast hsu
    have hup := firstCallLoop_get? m p.eosTokenId 0 p.formatters p.configs inputIds i f c
      hist hf hc hhist
    have hfs1 : fs1.get? i = some (laneUpdate m p.eosTokenId none f c hist) := by
      rw [hfs]
      exact hup
    have hmg := maskRows_get? m p.eosTokenId 0 fs1 scores i
      (laneUpdate m p.eosTokenId none f c hist) srow hfs1 hsrow
    constructor
    · rw [hpf]
      exact hmg.1
    · rw [hsc]
      exact hmg.2
  | some n =>
    obtain ⟨hsh, hfs, hlen, hev1⟩ :=
      stateUpdate_some_parts m p inputIds fs1 len1 evs1 n hlast hsu
    have ht : (inputIds.map fun row => row.getLastD 0).get? i = some (hist.getLastD 0) := by
      rw [List.get?_map, hhist]
      rfl
    have hup := laterCallLoop_get? m p.eosTokenId 0 p.formatters
      (inputIds.map fun row => row.getLastD 0) i f (hist.getLastD 0) hf ht
    have hfs1 : fs1.get? i = some (laneUpdate m p.eosTokenId (some n) f c hist) := by
      rw [hfs]
      exact hup
    have hmg := maskRows_get? m p.eosTokenId 0 fs1 scores i
      (laneUpdate m p.eosTokenId (some n) f c hist) srow hfs1 hsrow
    constructor
    · rw [hpf]
      exact hmg.1
    · rw [hsc]
      exact hmg.2

theorem step_lane_independence_witness :
    ([1] : List Nat).get? 0 =
      some (laneOutcome natMachine 0 none 0 ⟨false, true⟩ [1]
        [Score.val 3, Score.val 4]).1 :=
  (step_lane_independence natMachine ⟨[0], 0, none, [⟨false, true⟩]⟩ [[1]]
    [[Score.val 3, Score.val 4]] ⟨[1], 0, some 1, [⟨false, true⟩]⟩
    [[Score.val 3, Score.val 4]]
    [Event.accept 0 1, Event.computeAllowed 0, Event.maskCall 0] 0 0 ⟨false, true⟩
    [1] [Score.val 3, Score.val 4] rfl rfl rfl rfl rfl).1

/-- C4 (amended): a step call violating a precondition that the controller
checks — the lane count differing from the row count of the token-history
matrix, or a later call whose history length is not exactly one more than the
stored baseline — fails with the assert's error. Both asserts run before any
state-machine call, any score write and the baseline update, and on the error
path the call returns nothing but the message, so a failing call changes
nothing. -/
theorem step_precondition_fatal {σ : Type} (m : FMachine σ) (p : ProcState σ)
    (inputIds : List (List Nat)) (scores : List (List Score))
    (h : inputIds.length ≠ p.formatters.length ∨
      ∃ n, p.lastInputIdLength = some n ∧ shape1 inputIds ≠ n + 1) :
    ∃ msg, stepCall m p inputIds scores = Except.error msg := by
  by_cases hg : inputIds.length ≠ p.formatters.length
  · exact ⟨"Number of formatters must match batch size", by rw [stepCall, if_pos hg]⟩
  · rcases h with h | ⟨n, hlast, hsh⟩
    · exact absurd h hg
    · refine ⟨"One iteration in generation loop must add exactly one token.", ?_⟩
      rw [stepCall, if_neg hg]
      have hsu : stateUpdate m p inputIds =
          Except.error "One iteration in generation loop must add exactly one token." := by
        simp only [stateUpdate, hlast]
        rw [if_pos hsh]
      rw [hsu]

theorem step_precondition_fatal_witness :
    ∃ msg, stepCall natMachine (⟨[0], 0, none, [⟨false, true⟩]⟩ : ProcState Nat)
      [[1], [2]] [] = Except.error msg :=
  step_precondition_fatal natMachine ⟨[0], 0, none, [⟨false, true⟩]⟩ [[1], [2]] []
    (Or.inl (by decide))

/-- C4 counterexample: a call whose score matrix has two rows while the
controller drives a single lane. The claim says such a call fails fatally with
no row written, but the controller's assert compares the lane count with the
token-history matrix's row count only, so the call succeeds and writes lane
0's row. -/
theorem step_score_row_mismatch_not_fatal :
    (⟨[0], 0, none, [⟨false, true⟩]⟩ : ProcState Nat).formatters.length ≠
      ([[Score.val 1], [Score.val 2]] : List (List Score)).length ∧
    stepCall natMachine ⟨[0], 0, none, [⟨false, true⟩]⟩ [[5]]
      [[Score.val 1], [Score.val 2]] =
      Except.ok (⟨[1], 0, some 1, [⟨false, true⟩]⟩, [[Score.val 1], [Score.val 2]],
        [Event.accept 0 5, Event.computeAllowed 0, Event.maskCall 0]) := by
  constructor
  · decide
  · rfl

/-! ## Vocabulary creation
(`create_engine_vocabulary` in `src/formatron/integrations/transformers.py`) -/

/-- The tokenizer collaborator: `get_vocab()` as an association list of
token-string/id pairs in dict iteration order, plus `encode`. -/
structure Tokenizer where
  vocab : List (String × Nat)
  encode : String → List Nat

/-- Python dict assignment `d[k] = v` on an association list kept in insertion
order: an existing key keeps its position and receives the new value, a new
key is appended. -/
def dictSet {α : Type} (d : List (String × α)) (k : String) (v : α) : List (String × α) :=
  if d.any fun q => q.1 == k then
    d.map fun q => if q.1 == k then (k, v) else q
  else d ++ [(k, v)]

/-- The dict `id2tokens = (v: k for k, v in vocab.items())` followed by `id2tokens[i]`:
on duplicate values the later pair overwrites, so the last pair with id `i`
wins; `none` models the `KeyError` for an id that is no dict value. -/
def id2tokensGet (vocab : List (String × Nat)) (i : Nat) : Option String :=
  (vocab.reverse.find? fun q => q.2 == i).map Prod.fst

/-- The scan performed by `regex.sub` in `_multiple_replace` for a non-empty
replacements dict: at each position the alternation's keys are tried in dict
order (Python `re` alternation takes the first matching alternative, not the
longest); a hit emits the replacement value and skips the key, otherwise one
character is kept. -/
def scanReplace (reps : List (String × String)) : List Char → List Char
  | [] => []
  | ch :: rest =>
    match reps.find? fun q => !q.1.isEmpty && q.1.toList.isPrefixOf (ch :: rest) with
    | some (k, v) => v.toList ++ scanReplace reps (rest.drop (k.toList.length - 1))
    | none => ch :: scanReplace reps rest
termination_by l => l.length
decreasing_by
  all_goals simp only [List.length_drop, List.length_cons]
  all_goals omega

/-- Source `_multiple_replace(replacements, text)`: the pattern is
`"(" + "|".join(escaped keys) + ")"`. With an empty dict the pattern is `()`,
which matches the empty string at the first position, and the callback lookup
`replacements[mo.group()]` raises `KeyError` (modelled as `none`); otherwise
the alternation is substituted left to right. -/
def multipleReplace (reps : List (String × String)) (text : String) : Option String :=
  if reps.isEmpty then none
  else some (String.mk (scanReplace reps text.toList))

/-- Source `_get_original_whitespace_characters(tokenizer, vocab, chars)`: collect,
for each character whose single-token encoding differs from the character
itself, the mapping token-spelling → literal character, then rewrite every
vocabulary key with `_multiple_replace`, keeping ids. -/
def getOriginalWhitespaceCharacters (tok : Tokenizer) (vocab : List (String × Nat))
    (chars : List String) : Option (List (String × Nat)) := do
  let reps ← chars.foldlM (fun acc ch => do
    let charIds := tok.encode ch
    if charIds.length ≠ 1 then
      pure acc
    else do
      let charToken ← id2tokensGet vocab (charIds.headD 0)
      if charToken ≠ ch then pure (dictSet acc charToken ch) else pure acc) []
  vocab.foldlM (fun newVocab kv => do
    let newK ← multipleReplace reps kv.1
    pure (dictSet newVocab newK kv.2)) []

/-- Source `create_engine_vocabulary(tokenizer)`: whitespace canonicalization of the
tokenizer's vocabulary over space, newline, tab and double newline; the
construction of the external `kbnf.Vocabulary` from the canonicalized entries
is out of scope, so the canonicalized entries are the result. -/
def createEngineVocabulary (tok : Tokenizer) : Option (List (String × Nat)) :=
  getOriginalWhitespaceCharacters tok tok.vocab [" ", "\n", "\t", "\n\n"]

/-- A tokenizer whose single-token encodings of space, newline, tab and double
newline are the literal characters themselves, so that no whitespace
canonicalization is needed. -/
def identityTokenizer : Tokenizer where
  vocab := [(" ", 0), ("\n", 1), ("\t", 2), ("\n\n", 3), ("a", 4)]
  encode := fun s =>
    if s = " " then [0]
    else if s = "\n" then [1]
    else if s = "\t" then [2]
    else if s = "\n\n" then [3]
    else [4]

/-- C5: for a tokenizer whose native encodings of all four whitespace
characters already equal the literal characters, the claim expects
`create_engine_vocabulary` to succeed and return every entry unchanged; the
code instead fails on the very first vocabulary entry, because the empty
replacements dict compiles to the regex `()`, which matches the empty string,
and `replacements[""]` raises `KeyError`. -/
theorem create_engine_vocabulary_identity_fails :
    createEngineVocabulary identityTokenizer = none := by
  decide

end Formatron
